import Mathlib

/-!
Shallow embedding of the `3-building-bitcoin-with-rust` repository:
`src/linked_list.rs` (singly linked list with a front-inserting clone),
`src/mresult.rs` (custom result type), and `src/block.rs` (blocks,
transactions and the block chain with its two indexes).  Machine
integers carry no arithmetic in the modelled code (they are only
rendered as decimal text), so they are modelled as `Nat`.  The SHA-256
digest used through the `sha2` crate is implemented concretely below;
the incremental `Sha256` hasher is modelled as the list of bytes fed to
it so far (`update` appends the UTF-8 bytes of a string, `finalize`
digests the accumulated stream and hex-encodes it).
-/

namespace BtcChain

/-- UTF-8 encoding of one character, as its list of bytes. -/
def utf8Bytes (c : Char) : List Nat :=
  let n := c.toNat
  if n < 128 then [n]
  else if n < 2048 then [192 ||| (n >>> 6), 128 ||| (n &&& 63)]
  else if n < 65536 then
    [224 ||| (n >>> 12), 128 ||| ((n >>> 6) &&& 63), 128 ||| (n &&& 63)]
  else
    [240 ||| (n >>> 18), 128 ||| ((n >>> 12) &&& 63),
     128 ||| ((n >>> 6) &&& 63), 128 ||| (n &&& 63)]

/-- The byte stream of a string (UTF-8). -/
def strBytes (s : String) : List Nat :=
  (s.data.map utf8Bytes).flatten

/-- Truncation to a 32-bit word. -/
def w32 (x : Nat) : Nat := x % 4294967296

/-- 32-bit right rotation. -/
def rotr32 (n x : Nat) : Nat := w32 ((x >>> n) ||| (x <<< (32 - n)))

def smallSigma0 (x : Nat) : Nat := (rotr32 7 x) ^^^ (rotr32 18 x) ^^^ (x >>> 3)

def smallSigma1 (x : Nat) : Nat := (rotr32 17 x) ^^^ (rotr32 19 x) ^^^ (x >>> 10)

def bigSigma0 (x : Nat) : Nat := (rotr32 2 x) ^^^ (rotr32 13 x) ^^^ (rotr32 22 x)

def bigSigma1 (x : Nat) : Nat := (rotr32 6 x) ^^^ (rotr32 11 x) ^^^ (rotr32 25 x)

/-- The 64 SHA-256 round constants (FIPS 180-4), in decimal. -/
def shaK : List Nat :=
  [1116352408, 1899447441, 3049323471, 3921009573, 961987163,
   1508970993, 2453635748, 2870763221, 3624381080, 310598401,
   607225278, 1426881987, 1925078388, 2162078206, 2614888103,
   3248222580, 3835390401, 4022224774, 264347078, 604807628,
   770255983, 1249150122, 1555081692, 1996064986, 2554220882,
   2821834349, 2952996808, 3210313671, 3336571891, 3584528711,
   113926993, 338241895, 666307205, 773529912, 1294757372,
   1396182291, 1695183700, 1986661051, 2177026350, 2456956037,
   2730485921, 2820302411, 3259730800, 3345764771, 3516065817,
   3600352804, 4094571909, 275423344, 430227734, 506948616,
   659060556, 883997877, 958139571, 1322822218, 1537002063,
   1747873779, 1955562222, 2024104815, 2227730452, 2361852424,
   2428436474, 2756734187, 3204031479, 3329325298]

/-- The SHA-256 initial hash state (FIPS 180-4), in decimal. -/
def shaH0 : List Nat :=
  [1779033703, 3144134277, 1013904242, 2773480762,
   1359893119, 2600822924, 528734635, 1541459225]

/-- `n` bytes of `x`, big endian. -/
def beBytes (n x : Nat) : List Nat :=
  (List.range n).map (fun i => (x >>> (8 * (n - 1 - i))) % 256)

/-- SHA-256 padding: a `0x80` byte, zeros to 56 mod 64, then the bit
length on 8 big-endian bytes. -/
def padMessage (msg : List Nat) : List Nat :=
  let padZeros := (119 - msg.length % 64) % 64
  msg ++ [128] ++ List.replicate padZeros 0 ++ beBytes 8 (8 * msg.length)

/-- Split a byte stream into 64-byte chunks. -/
def chunk64 : List Nat → List (List Nat)
  | [] => []
  | x :: xs => ((x :: xs).take 64) :: chunk64 (xs.drop 63)
termination_by l => l.length
decreasing_by simp; omega

/-- Group bytes four at a time into big-endian 32-bit words. -/
def bytesToWords : List Nat → List Nat
  | a :: b :: c :: d :: rest =>
      (((a * 256 + b) * 256 + c) * 256 + d) :: bytesToWords rest
  | _ => []

/-- Extend the 16 message-schedule words of a chunk to 64. -/
def extendSchedule (w : Array Nat) : Array Nat :=
  (List.range 48).foldl
    (fun w i =>
      w.push (w32 (smallSigma1 (w.getD (i + 14) 0) + w.getD (i + 9) 0 +
                   smallSigma0 (w.getD (i + 1) 0) + w.getD i 0)))
    w

/-- One SHA-256 compression round; the state is the list
`[a, b, c, d, e, f, g, h]` and `kw` is `K[i] + W[i]` truncated. -/
def shaRound (st : List Nat) (kw : Nat) : List Nat :=
  match st with
  | [a, b, c, d, e, f, g, h] =>
      let ch := (e &&& f) ^^^ ((4294967295 ^^^ e) &&& g)
      let maj := (a &&& b) ^^^ (a &&& c) ^^^ (b &&& c)
      let t1 := w32 (h + bigSigma1 e + ch + kw)
      let t2 := w32 (bigSigma0 a + maj)
      [w32 (t1 + t2), a, b, c, w32 (d + t1), e, f, g]
  | _ => st

/-- Compress one 64-byte chunk into the running 8-word state. -/
def compress (hs : List Nat) (chunk : List Nat) : List Nat :=
  let w := extendSchedule (Array.mk (bytesToWords chunk))
  let kws := (List.range 64).map (fun i => w32 (shaK.getD i 0 + w.getD i 0))
  let st := kws.foldl shaRound hs
  List.zipWith (fun a b => w32 (a + b)) hs st

/-- SHA-256 of a byte stream, as eight 32-bit words. -/
def sha256 (msg : List Nat) : List Nat :=
  (chunk64 (padMessage msg)).foldl compress shaH0

/-- Lowercase hex digit. -/
def hexChar (n : Nat) : Char :=
  if n < 10 then Char.ofNat (48 + n) else Char.ofNat (87 + n)

/-- Eight lowercase hex digits of a 32-bit word. -/
def wordHex (x : Nat) : List Char :=
  (List.range 8).map (fun i => hexChar ((x >>> (4 * (7 - i))) % 16))

/-- Lowercase hex encoding of a word list (`hex::encode` of the digest). -/
def hexEncodeWords (ws : List Nat) : String :=
  String.mk ((ws.map wordHex).flatten)

/-- The incremental `Sha256` hasher, modelled as the byte stream fed to
it so far. -/
abbrev Hasher : Type := List Nat

/-- `Sha256::new()`: nothing fed yet. -/
def Hasher.new : Hasher := []

/-- `hasher.update(s)`: append the UTF-8 bytes of `s`. -/
def Hasher.update (h : Hasher) (s : String) : Hasher := h ++ strBytes s

/-- `hex::encode(hasher.finalize())`. -/
def Hasher.finalizeHex (h : Hasher) : String := hexEncodeWords (sha256 h)

/-!  `src/linked_list.rs`.  A `LinkedList<T>` is a singly linked chain of
boxed nodes; its value content, in iteration order (head first), is a
Lean `List T`.  `push_front` prepends, `iter` walks head to tail, and
the hand-written `Clone` instance walks the source list front to back
`push_front`-ing each cloned element into the new list.  The element
clone is passed explicitly (Rust resolves it through the `Clone`
bound). -/

abbrev LinkedList (T : Type) : Type := List T

/-- `LinkedList::new()`. -/
def LinkedList.new {T : Type} : LinkedList T := []

/-- `LinkedList::push_front`. -/
def LinkedList.push_front {T : Type} (l : LinkedList T) (v : T) : LinkedList T :=
  v :: l

/-- `impl Clone for LinkedList`: iterate `self` front to back, pushing
each cloned element to the front of a fresh list. -/
def LinkedList.clone {T : Type} (c : T → T) (l : LinkedList T) : LinkedList T :=
  l.foldl (fun acc item => acc.push_front (c item)) LinkedList.new

/-!  `src/mresult.rs`. -/

inductive MResult (T E : Type) : Type
  | Ok : T → MResult T E
  | Err : E → MResult T E
deriving DecidableEq

/-!  `src/block.rs`: the data model.  `HashMap` lookups and inserts are
the only map operations the code performs, so the two indexes are
modelled as functions into `Option` (insert overwrites the key's
binding, as Rust's `HashMap::insert` does). -/

structure TxIn : Type where
  prev_txid : String
  vout : Nat
  signature : String
  sequence : Nat
deriving DecidableEq

structure TxOut : Type where
  public_address : String
  satoshis : Nat
deriving DecidableEq

structure Transaction : Type where
  inputs : LinkedList TxIn
  outputs : LinkedList TxOut
  txid : String
deriving DecidableEq

structure Block : Type where
  hash : String
  height : Nat
  transactions : LinkedList Transaction
  prev_block_hash : String
  timestamp : Nat
  merkle_root : String
  nonce : Nat
deriving DecidableEq

structure BlockChain : Type where
  blocks : LinkedList Block
  block_index : String → Option Block
  height_index : Nat → Option String

/-- `derive(Clone)` on `TxIn`: all fields clone to equal values. -/
def TxIn.clone (t : TxIn) : TxIn := t

/-- `derive(Clone)` on `TxOut`: all fields clone to equal values. -/
def TxOut.clone (t : TxOut) : TxOut := t

/-- `derive(Clone)` on `Transaction`: each field is cloned, the two
lists through `LinkedList`'s hand-written clone. -/
def Transaction.clone (t : Transaction) : Transaction :=
  { inputs := t.inputs.clone TxIn.clone,
    outputs := t.outputs.clone TxOut.clone,
    txid := t.txid }

/-- `derive(Clone)` on `Block`: each field is cloned, the transaction
list through `LinkedList`'s hand-written clone. -/
def Block.clone (b : Block) : Block :=
  { b with transactions := b.transactions.clone Transaction.clone }

/-- `Block::calculate_hash`: digest of height (decimal text), previous
block hash, timestamp (decimal text), merkle root and nonce (decimal
text), fed to the hasher in that order. -/
def Block.calculate_hash (self : Block) : String :=
  (((((Hasher.new.update (toString self.height)).update
        self.prev_block_hash).update
        (toString self.timestamp)).update
        self.merkle_root).update
        (toString self.nonce)).finalizeHex

/-- `Block::new`. -/
def Block.new (height : Nat) (prev_block_hash : String) (timestamp : Nat)
    (merkle_root : String) (nonce : Nat) : Block :=
  let block : Block :=
    { hash := "", height, transactions := LinkedList.new,
      prev_block_hash, timestamp, merkle_root, nonce }
  { block with hash := block.calculate_hash }

/-- `Block::add_transaction`: prepend, recompute the stored hash,
return `Ok(())`.  Mutation of `self` is modelled by returning the
updated block alongside the result. -/
def Block.add_transaction (self : Block) (transaction : Transaction) :
    MResult Unit String × Block :=
  let s1 : Block := { self with transactions := self.transactions.push_front transaction }
  let s2 : Block := { s1 with hash := s1.calculate_hash }
  (MResult.Ok (), s2)

/-- `Block::get_transaction`: first transaction whose txid matches. -/
def Block.get_transaction (self : Block) (txid : String) : Option Transaction :=
  self.transactions.find? (fun tx => tx.txid == txid)

/-- `Transaction::calculate_txid`: digest over each input's previous
txid, vout (decimal text), signature and sequence (decimal text), then
each output's address and amount (decimal text). -/
def Transaction.calculate_txid (self : Transaction) : String :=
  let h := self.inputs.foldl
    (fun (h : Hasher) (input : TxIn) =>
      (((h.update input.prev_txid).update (toString input.vout)).update
          input.signature).update (toString input.sequence))
    Hasher.new
  let h := self.outputs.foldl
    (fun (h : Hasher) (output : TxOut) =>
      (h.update output.public_address).update (toString output.satoshis))
    h
  h.finalizeHex

/-- `Transaction::new`. -/
def Transaction.new (inputs : LinkedList TxIn) (outputs : LinkedList TxOut) :
    Transaction :=
  let tx : Transaction := { inputs, outputs, txid := "" }
  { tx with txid := tx.calculate_txid }

/-- `BlockChain::new()`. -/
def BlockChain.new : BlockChain :=
  { blocks := LinkedList.new,
    block_index := fun _ => none,
    height_index := fun _ => none }

/-- `BlockChain::get_block_by_hash`. -/
def BlockChain.get_block_by_hash (self : BlockChain) (hash : String) :
    Option Block :=
  self.block_index hash

/-- `BlockChain::is_valid_block`: genesis blocks (height 0) are always
valid; otherwise the previous block hash must be a key of the hash
index. -/
def BlockChain.is_valid_block (self : BlockChain) (block : Block) : Bool :=
  if block.height > 0 then
    (self.get_block_by_hash block.prev_block_hash).isSome
  else
    true

/-- `BlockChain::add_block`: validate, then record height → hash,
prepend a clone of the block to the sequence and record hash → block.
Mutation of `self` is modelled by returning the updated chain. -/
def BlockChain.add_block (self : BlockChain) (block : Block) :
    MResult Unit String × BlockChain :=
  if ¬ self.is_valid_block block then
    (MResult.Err "Invalid block", self)
  else
    let block_hash := block.hash
    let block_height := block.height
    let s1 : BlockChain :=
      { self with height_index :=
          fun h => if h = block_height then some block_hash else self.height_index h }
    let s2 : BlockChain :=
      { s1 with blocks := s1.blocks.push_front block.clone }
    let s3 : BlockChain :=
      { s2 with block_index :=
          fun k => if k = block_hash then some block else s2.block_index k }
    (MResult.Ok (), s3)

/-- `BlockChain::get_block_by_height`: height → hash → block. -/
def BlockChain.get_block_by_height (self : BlockChain) (height : Nat) :
    Option Block :=
  (self.height_index height).bind (fun hash => self.block_index hash)

/-- `BlockChain::get_block_count`: length of the block sequence. -/
def BlockChain.get_block_count (self : BlockChain) : Nat :=
  self.blocks.length

/-- `BlockChain::get_transaction`: first match scanning blocks in
sequence order (most recently inserted first). -/
def BlockChain.get_transaction (self : BlockChain) (txid : String) :
    Option Transaction :=
  self.blocks.findSome? (fun block => block.get_transaction txid)

/-- `BlockChain::get_best_block_hash`: hash of the head of the
sequence, i.e. of the most recently inserted block. -/
def BlockChain.get_best_block_hash (self : BlockChain) : Option String :=
  self.blocks.head?.map (fun block => block.hash)

/-- Chain states reachable from the empty chain by `add_block` calls. -/
inductive Reachable : BlockChain → Prop
  | new : Reachable BlockChain.new
  | step (s : BlockChain) (b : Block) : Reachable s → Reachable (s.add_block b).2

/-- Insert a list of blocks in order, keeping only the final state. -/
def addAll (s : BlockChain) (bs : List Block) : BlockChain :=
  bs.foldl (fun s b => (s.add_block b).2) s

/-- Text fed to the hasher for one transaction input. -/
def txInText (i : TxIn) : String :=
  i.prev_txid ++ toString i.vout ++ i.signature ++ toString i.sequence

/-- Text fed to the hasher for one transaction output. -/
def txOutText (o : TxOut) : String :=
  o.public_address ++ toString o.satoshis

/-!  Concrete fixtures used to instantiate the theorems below. -/

def txA : Transaction := { inputs := [], outputs := [], txid := "aa" }

def txB : Transaction := { inputs := [], outputs := [], txid := "bb" }

def tx4 : Transaction := { inputs := [], outputs := [], txid := "t4" }

def block1bad : Block :=
  { hash := "deadbeef", height := 1, transactions := [],
    prev_block_hash := "feedface", timestamp := 7, merkle_root := "mm", nonce := 9 }

def block2gen : Block :=
  { hash := "g2", height := 0, transactions := [],
    prev_block_hash := "nonzero", timestamp := 1, merkle_root := "m", nonce := 1 }

def block3a : Block :=
  { hash := "x3", height := 2, transactions := [txA],
    prev_block_hash := "p3", timestamp := 5, merkle_root := "m3", nonce := 6 }

def block3b : Block :=
  { hash := "y3", height := 2, transactions := [txB, txA],
    prev_block_hash := "p3", timestamp := 5, merkle_root := "m3", nonce := 6 }

def block5 : Block :=
  { hash := "h5", height := 0, transactions := [txA, txB],
    prev_block_hash := "p5", timestamp := 1, merkle_root := "m5", nonce := 2 }

def chain5 : BlockChain := (BlockChain.new.add_block block5).2

def block6 : Block :=
  { hash := "h6", height := 0, transactions := [],
    prev_block_hash := "p6", timestamp := 1, merkle_root := "m6", nonce := 2 }

def block7g : Block :=
  { hash := "h70", height := 0, transactions := [],
    prev_block_hash := "p7", timestamp := 1, merkle_root := "m70", nonce := 2 }

def block7n : Block :=
  { hash := "h71", height := 1, transactions := [],
    prev_block_hash := "h70", timestamp := 3, merkle_root := "m71", nonce := 4 }

def chain7 : List Block := [block7g, block7n]

def block10 : Block :=
  { hash := "hX", height := 0, transactions := [txA, txB],
    prev_block_hash := "pX", timestamp := 1, merkle_root := "mX", nonce := 2 }

/-!  Helper lemmas. -/

theorem strBytes_append (s t : String) :
    strBytes (s ++ t) = strBytes s ++ strBytes t := by
  simp [strBytes, String.data_append]

theorem Hasher.update_assoc (h : Hasher) (s t : String) :
    (h.update s).update t = h.update (s ++ t) := by
  simp [Hasher.update, strBytes_append]

theorem strJoin_foldl (a : String) (l : List String) :
    l.foldl (fun r s => r ++ s) a = a ++ String.join l := by
  induction l generalizing a with
  | nil => simp [String.join, String.append_empty]
  | cons s l ih =>
      show l.foldl _ (a ++ s) = a ++ String.join (s :: l)
      have hj : String.join (s :: l) = s ++ String.join l := by
        show l.foldl _ ("" ++ s) = _
        rw [ih, String.empty_append]
      rw [ih, hj, String.append_assoc]

theorem strJoin_cons (s : String) (l : List String) :
    String.join (s :: l) = s ++ String.join l := by
  show l.foldl _ ("" ++ s) = _
  rw [strJoin_foldl, String.empty_append]

theorem hasher_foldl_update {α : Type} (g : α → String) (l : List α) (h : Hasher) :
    l.foldl (fun h a => Hasher.update h (g a)) h
      = h.update (String.join (l.map g)) := by
  induction l generalizing h with
  | nil => simp [String.join, Hasher.update, strBytes]
  | cons a l ih =>
      simp only [List.foldl_cons, List.map_cons, ih, Hasher.update_assoc,
        strJoin_cons]

theorem clone_foldl {T : Type} (c : T → T) (l acc : List T) :
    l.foldl (fun acc item => c item :: acc) acc
      = (l.map c).reverse ++ acc := by
  induction l generalizing acc with
  | nil => simp
  | cons x xs ih => simp [ih]

/-- The hand-written `Clone` of `LinkedList` reverses iteration order
(each element itself cloned). -/
theorem LinkedList.clone_eq {T : Type} (c : T → T) (l : LinkedList T) :
    l.clone c = (l.map c).reverse := by
  simp [LinkedList.clone, LinkedList.push_front, clone_foldl, LinkedList.new]

theorem Transaction.clone_txid (t : Transaction) : t.clone.txid = t.txid := rfl

theorem Block.clone_hash (b : Block) : b.clone.hash = b.hash := rfl

theorem Block.clone_height (b : Block) : b.clone.height = b.height := rfl

/-- `add_transaction` recomputes the hash from the header fields, which
it does not touch, so the recomputed hash is `calculate_hash` of the
original block. -/
theorem add_transaction_hash (b : Block) (t : Transaction) :
    (b.add_transaction t).2.hash = b.calculate_hash := rfl

theorem new_block_hash (height : Nat) (prev : String) (timestamp : Nat)
    (merkle : String) (nonce : Nat) :
    (Block.new height prev timestamp merkle nonce).hash
      = (Block.new height prev timestamp merkle nonce).calculate_hash := rfl

theorem add_block_invalid (s : BlockChain) (b : Block)
    (h : s.is_valid_block b = false) :
    s.add_block b = (MResult.Err "Invalid block", s) := by
  simp [BlockChain.add_block, h]

theorem add_block_valid (s : BlockChain) (b : Block)
    (h : s.is_valid_block b = true) :
    s.add_block b =
      (MResult.Ok (),
       { blocks := b.clone :: s.blocks,
         block_index := fun k => if k = b.hash then some b else s.block_index k,
         height_index := fun hh => if hh = b.height then some b.hash
                                   else s.height_index hh }) := by
  simp [BlockChain.add_block, h, LinkedList.push_front]

theorem add_block_ok_iff (s : BlockChain) (b : Block) :
    (s.add_block b).1 = MResult.Ok () ↔ s.is_valid_block b = true := by
  cases hv : s.is_valid_block b
  · simp [add_block_invalid s b hv, hv]
  · simp [add_block_valid s b hv, hv]

/-- `calculate_hash` is the digest of the five header fields' texts
concatenated in order. -/
theorem calculate_hash_flat (b : Block) :
    b.calculate_hash
      = hexEncodeWords (sha256 (strBytes
          (toString b.height ++ b.prev_block_hash ++ toString b.timestamp ++
           b.merkle_root ++ toString b.nonce))) := by
  simp only [Block.calculate_hash, Hasher.update_assoc]
  simp [Hasher.update, Hasher.new, Hasher.finalizeHex, String.append_assoc]

/-- C1: for every chain state and every block whose height is greater
than 0 and whose previous-block hash is not a key of the hash index,
`add_block` returns the `InvalidBlock` error (the `Err "Invalid block"`
result) and leaves the chain completely unmodified: the block sequence,
the hash index, the height index, and therefore `get_block_count` are
all unchanged. -/
theorem C1_invalid_block_noop (s : BlockChain) (b : Block)
    (hh : 0 < b.height) (hp : s.block_index b.prev_block_hash = none) :
    (s.add_block b).1 = MResult.Err "Invalid block"
      ∧ (s.add_block b).2 = s
      ∧ (s.add_block b).2.blocks = s.blocks
      ∧ (s.add_block b).2.block_index = s.block_index
      ∧ (s.add_block b).2.height_index = s.height_index
      ∧ (s.add_block b).2.get_block_count = s.get_block_count := by
  have hv : s.is_valid_block b = false := by
    simp [BlockChain.is_valid_block, BlockChain.get_block_by_hash, hh, hp]
  rw [add_block_invalid s b hv]
  exact ⟨rfl, rfl, rfl, rfl, rfl, rfl⟩

/-- C1 witness: rejecting a height-1 block with an unknown previous
hash on the empty chain. -/
theorem C1_witness :
    (BlockChain.new.add_block block1bad).1 = MResult.Err "Invalid block"
      ∧ (BlockChain.new.add_block block1bad).2 = BlockChain.new
      ∧ (BlockChain.new.add_block block1bad).2.blocks = BlockChain.new.blocks
      ∧ (BlockChain.new.add_block block1bad).2.block_index
          = BlockChain.new.block_index
      ∧ (BlockChain.new.add_block block1bad).2.height_index
          = BlockChain.new.height_index
      ∧ (BlockChain.new.add_block block1bad).2.get_block_count
          = BlockChain.new.get_block_count :=
  C1_invalid_block_noop BlockChain.new block1bad (by decide) rfl

/-- C2: `is_valid_block` returns `true` for a block of height 0
regardless of its declared previous hash and of the chain contents,
and for height greater than 0 it returns `true` iff the block's
previous-block hash is a key of the hash index.  The predicate is a
pure function of the chain (it takes `self` by shared reference and
returns only a `Bool`), so it never modifies the chain. -/
theorem C2_is_valid_block_spec (s : BlockChain) (b : Block) :
    (b.height = 0 → s.is_valid_block b = true)
      ∧ (0 < b.height →
          (s.is_valid_block b = true
            ↔ ∃ blk, s.block_index b.prev_block_hash = some blk)) := by
  constructor
  · intro h0
    simp [BlockChain.is_valid_block, h0]
  · intro hpos
    simp [BlockChain.is_valid_block, BlockChain.get_block_by_hash, hpos,
      Option.isSome_iff_exists]

/-- C2 witness: a genesis block with a nonzero previous hash is valid
on the empty chain. -/
theorem C2_witness : BlockChain.new.is_valid_block block2gen = true :=
  (C2_is_valid_block_spec BlockChain.new block2gen).1 rfl

/-- C3: the block hash is a pure deterministic function of exactly the
five header fields digested in the fixed order height (decimal text),
previous hash, timestamp (decimal text), merkle root, nonce (decimal
text); two blocks agreeing on these five fields hash identically even
when their transaction sequences differ. -/
theorem C3_hash_from_five_fields (b1 b2 : Block)
    (h1 : b1.height = b2.height)
    (h2 : b1.prev_block_hash = b2.prev_block_hash)
    (h3 : b1.timestamp = b2.timestamp)
    (h4 : b1.merkle_root = b2.merkle_root)
    (h5 : b1.nonce = b2.nonce) :
    b1.calculate_hash = b2.calculate_hash
      ∧ b1.calculate_hash
          = hexEncodeWords (sha256 (strBytes
              (toString b1.height ++ b1.prev_block_hash ++
               toString b1.timestamp ++ b1.merkle_root ++
               toString b1.nonce))) := by
  refine ⟨?_, calculate_hash_flat b1⟩
  rw [calculate_hash_flat b1, calculate_hash_flat b2, h1, h2, h3, h4, h5]

/-- C3 witness: two blocks with the same header fields but different
transaction lists have the same `calculate_hash`. -/
theorem C3_witness :
    block3a.calculate_hash = block3b.calculate_hash
      ∧ block3a.calculate_hash
          = hexEncodeWords (sha256 (strBytes
              (toString block3a.height ++ block3a.prev_block_hash ++
               toString block3a.timestamp ++ block3a.merkle_root ++
               toString block3a.nonce))) :=
  C3_hash_from_five_fields block3a block3b rfl rfl rfl rfl rfl

/-- C4 counterexample: the claim says every `add_transaction` call
changes the stored hash.  On a freshly constructed block (whose stored
hash is `calculate_hash` of its fields) adding a transaction leaves
the stored hash exactly equal to its previous value, because
`calculate_hash` does not read the transaction list. -/
theorem C4_counterexample :
    ((Block.new 0 "p" 5 "m" 7).add_transaction tx4).2.hash
      = (Block.new 0 "p" 5 "m" 7).hash :=
  (add_transaction_hash (Block.new 0 "p" 5 "m" 7) tx4).trans
    (new_block_hash 0 "p" 5 "m" 7).symm

/-- C4 amended: `add_transaction` does recompute and store the hash on
every transaction addition, but the recomputed value is the digest of
the five header fields, which the call does not touch; hence for any
block whose stored hash is in sync with its fields (as produced by
`Block::new` and by previous `add_transaction` calls) the stored hash
after the call equals the stored hash before the call, rather than
differing from it.  The recomputed hash also stays in sync with the
block's fields. -/
theorem C4_amended_hash_unchanged (b : Block) (t : Transaction)
    (hsync : b.hash = b.calculate_hash) :
    (b.add_transaction t).2.hash = b.hash
      ∧ (b.add_transaction t).2.hash = (b.add_transaction t).2.calculate_hash := by
  refine ⟨(add_transaction_hash b t).trans hsync.symm, rfl⟩

/-- C4 witness: adding a transaction to a freshly constructed block
leaves the stored hash unchanged and in sync. -/
theorem C4_witness :
    ((Block.new 1 "q" 8 "n" 3).add_transaction txA).2.hash
        = (Block.new 1 "q" 8 "n" 3).hash
      ∧ ((Block.new 1 "q" 8 "n" 3).add_transaction txA).2.hash
          = ((Block.new 1 "q" 8 "n" 3).add_transaction txA).2.calculate_hash :=
  C4_amended_hash_unchanged (Block.new 1 "q" 8 "n" 3) txA
    (new_block_hash 1 "q" 8 "n" 3)

/-- C6: after any successful `add_block`, `get_best_block_hash`
returns the hash of the just-inserted block. -/
theorem C6_best_hash_after_insert (s : BlockChain) (b : Block)
    (hok : (s.add_block b).1 = MResult.Ok ()) :
    (s.add_block b).2.get_best_block_hash = some b.hash := by
  have hv := (add_block_ok_iff s b).mp hok
  rw [add_block_valid s b hv]
  simp [BlockChain.get_best_block_hash, Block.clone_hash]

/-- C6 witness: after inserting a genesis block into the empty chain,
the best hash is that block's hash. -/
theorem C6_witness :
    (BlockChain.new.add_block block6).2.get_best_block_hash
      = some block6.hash :=
  C6_best_hash_after_insert BlockChain.new block6 rfl

/-- C8: `add_transaction` prepends the transaction to the block's
transaction sequence (so its length grows by exactly one), always
returns `Ok(())`, and afterwards `get_transaction` with the
transaction's identifier returns it. -/
theorem C8_add_transaction_prepends (b : Block) (t : Transaction) :
    (b.add_transaction t).1 = MResult.Ok ()
      ∧ (b.add_transaction t).2.transactions = t :: b.transactions
      ∧ (b.add_transaction t).2.transactions.length = b.transactions.length + 1
      ∧ (b.add_transaction t).2.get_transaction t.txid = some t := by
  refine ⟨rfl, rfl, rfl, ?_⟩
  show (t :: b.transactions).find? (fun tx => tx.txid == t.txid) = some t
  simp [List.find?]

theorem txid_fold_inputs (l : List TxIn) (h : Hasher) :
    l.foldl
      (fun (h : Hasher) (input : TxIn) =>
        (((h.update input.prev_txid).update (toString input.vout)).update
            input.signature).update (toString input.sequence)) h
      = h.update (String.join (l.map txInText)) := by
  induction l generalizing h with
  | nil => simp [String.join, Hasher.update, strBytes]
  | cons a l ih =>
      rw [List.foldl_cons, ih]
      simp only [List.map_cons, strJoin_cons, Hasher.update_assoc, txInText,
        String.append_assoc]

theorem txid_fold_outputs (l : List TxOut) (h : Hasher) :
    l.foldl
      (fun (h : Hasher) (output : TxOut) =>
        (h.update output.public_address).update (toString output.satoshis)) h
      = h.update (String.join (l.map txOutText)) := by
  induction l generalizing h with
  | nil => simp [String.join, Hasher.update, strBytes]
  | cons a l ih =>
      rw [List.foldl_cons, ih]
      simp only [List.map_cons, strJoin_cons, Hasher.update_assoc, txOutText,
        String.append_assoc]

/-- C9: the transaction identifier computed at construction is the
digest over, in order, for each input the previous txid, the vout
index as decimal text, the signature and the sequence number as
decimal text, then for each output the address and the amount as
decimal text.  Being a function of the two sequences, any two
transactions built from identical input/output sequences receive
identical identifiers. -/
theorem C9_txid_from_content (inputs : LinkedList TxIn)
    (outputs : LinkedList TxOut) :
    (Transaction.new inputs outputs).txid
      = hexEncodeWords (sha256 (strBytes
          (String.join (inputs.map txInText) ++
           String.join (outputs.map txOutText)))) := by
  show (Transaction.mk inputs outputs "").calculate_txid = _
  simp only [Transaction.calculate_txid]
  rw [txid_fold_inputs, txid_fold_outputs, Hasher.update_assoc]
  simp [Hasher.update, Hasher.new, Hasher.finalizeHex]

/-- C10: the hand-written `Clone` for `LinkedList` iterates the source
front to back while pushing each cloned element to the front, so the
clone's iteration order is the reverse of the source's.  Consequently,
when `add_block` accepts a block carrying two or more transactions,
the copy pushed onto the chain's block sequence (a clone) carries its
transaction sequence in the reverse order of the copy stored in the
hash index (the original, moved in). -/
theorem C10_clone_reverses :
    (∀ {T : Type} (c : T → T) (l : LinkedList T),
        l.clone c = (l.map c).reverse)
    ∧ (∀ (s : BlockChain) (b : Block),
        (s.add_block b).1 = MResult.Ok () → 2 ≤ b.transactions.length →
        ∃ bseq bidx,
          (s.add_block b).2.blocks.head? = some bseq
            ∧ (s.add_block b).2.block_index b.hash = some bidx
            ∧ bseq.transactions.map Transaction.txid
                = (bidx.transactions.map Transaction.txid).reverse) := by
  constructor
  · exact fun c l => LinkedList.clone_eq c l
  · intro s b hok _hlen
    have hv := (add_block_ok_iff s b).mp hok
    rw [add_block_valid s b hv]
    refine ⟨b.clone, b, rfl, by simp, ?_⟩
    simp only [Block.clone, LinkedList.clone_eq]
    simp [List.map_reverse, List.map_map, Function.comp, Transaction.clone_txid]

/-- C5 counterexample: the claim asserts that in every reachable chain
state each block reachable via an index is reachable via the block
sequence.  One `add_block` on the empty chain already refutes it: the
inserted block (with two distinct transactions) is returned by
`get_block_by_height`, but the sequence holds only its clone, whose
transaction list is reversed, so the indexed block itself is not in
the sequence. -/
theorem C5_counterexample :
    Reachable chain5
      ∧ chain5.get_block_by_height 0 = some block5
      ∧ block5 ∉ chain5.blocks :=
  ⟨Reachable.step BlockChain.new block5 Reachable.new, by decide, by decide⟩

/-- C5 amended: every reachable chain state keeps the hash index and
the height index synchronized with the block sequence up to the
transaction-reversing clone taken on insertion and up to index
overwrites: every block in the sequence has its hash present as a key
of the hash index; every block stored in the hash index sits under its
own hash as key and its clone is in the sequence; and every
height-index entry resolves through the hash index to a block carrying
that hash (whose clone is therefore in the sequence).  The original
bidirectional same-value correspondence fails because the sequence
stores a clone with reversed transaction order, and the
height-index-to-sequence direction can also drop blocks when a
duplicate height overwrites an entry. -/
theorem C5_amended_sync_up_to_clone (s : BlockChain) (hs : Reachable s) :
    (∀ b ∈ s.blocks, (s.block_index b.hash).isSome)
      ∧ (∀ k b, s.block_index k = some b → b.hash = k ∧ b.clone ∈ s.blocks)
      ∧ (∀ h k, s.height_index h = some k →
          ∃ b, s.block_index k = some b ∧ b.hash = k) := by
  induction hs with
  | new =>
      refine ⟨?_, ?_, ?_⟩
      · intro b hb
        simp [BlockChain.new, LinkedList.new] at hb
      · intro k b hkb
        simp [BlockChain.new, LinkedList.new] at hkb
      · intro h k hk
        simp [BlockChain.new, LinkedList.new] at hk
  | step s b _hs ih =>
      obtain ⟨ih1, ih2, ih3⟩ := ih
      cases hv : s.is_valid_block b with
      | false =>
          rw [add_block_invalid s b hv]
          exact ⟨ih1, ih2, ih3⟩
      | true =>
          rw [add_block_valid s b hv]
          dsimp only
          refine ⟨?_, ?_, ?_⟩
          · intro b' hb'
            simp only [List.mem_cons] at hb'
            rcases hb' with h1 | h2
            · subst h1
              simp [Block.clone_hash]
            · by_cases hk : b'.hash = b.hash
              · simp [hk]
              · simpa [hk] using ih1 b' h2
          · intro k bb hkb
            by_cases hk : k = b.hash
            · rw [if_pos hk] at hkb
              obtain rfl : b = bb := Option.some.inj hkb
              exact ⟨hk.symm, List.mem_cons_self _ _⟩
            · rw [if_neg hk] at hkb
              obtain ⟨hh, hmem⟩ := ih2 k bb hkb
              exact ⟨hh, List.mem_cons_of_mem _ hmem⟩
          · intro h k hk
            by_cases hx : h = b.height
            · rw [if_pos hx] at hk
              obtain rfl : b.hash = k := Option.some.inj hk
              exact ⟨b, by rw [if_pos rfl], rfl⟩
            · rw [if_neg hx] at hk
              obtain ⟨bb, hbb, hbh⟩ := ih3 h k hk
              by_cases hk2 : k = b.hash
              · exact ⟨b, by rw [if_pos hk2], hk2.symm⟩
              · exact ⟨bb, by rw [if_neg hk2]; exact hbb, hbh⟩

/-- C5 witness: the amended synchronization at a concrete reachable
state. -/
theorem C5_witness :
    (∀ b ∈ chain5.blocks, (chain5.block_index b.hash).isSome)
      ∧ (∀ k b, chain5.block_index k = some b → b.hash = k ∧ b.clone ∈ chain5.blocks)
      ∧ (∀ h k, chain5.height_index h = some k →
          ∃ b, chain5.block_index k = some b ∧ b.hash = k) :=
  C5_amended_sync_up_to_clone chain5
    (Reachable.step BlockChain.new block5 Reachable.new)

theorem addAll_take_succ (bs : List Block) (k : Nat) (hk : k < bs.length) :
    addAll BlockChain.new (bs.take (k + 1))
      = ((addAll BlockChain.new (bs.take k)).add_block (bs.get ⟨k, hk⟩)).2 := by
  rw [List.take_succ, List.getElem?_eq_getElem hk]
  simp only [addAll]
  rw [List.foldl_append]
  rfl

/-- State of the chain after inserting the first `k` blocks of a valid
chain: `k` blocks in the sequence, the best hash is the `k-1`-st
block's, and both indexes resolve every position `j < k`. -/
theorem addAll_state (bs : List Block)
    (hheights : ∀ (i : Nat) (hi : i < bs.length), (bs.get ⟨i, hi⟩).height = i)
    (hlink : ∀ (i : Nat) (hi : i < bs.length - 1),
      (addAll BlockChain.new (bs.take (i + 1))).get_best_block_hash
        = some ((bs.get ⟨i + 1, by omega⟩).prev_block_hash))
    (hdist : ∀ (i : Nat) (hi : i < bs.length) (j : Nat) (hj : j < bs.length),
      i ≠ j → (bs.get ⟨i, hi⟩).hash ≠ (bs.get ⟨j, hj⟩).hash) :
    ∀ (k : Nat), k ≤ bs.length →
      (addAll BlockChain.new (bs.take k)).blocks.length = k
      ∧ (∀ (_hpos : 0 < k) (hk1 : k - 1 < bs.length),
           (addAll BlockChain.new (bs.take k)).get_best_block_hash
             = some ((bs.get ⟨k - 1, hk1⟩).hash))
      ∧ (∀ (j : Nat) (_hj1 : j < k) (hj2 : j < bs.length),
           (addAll BlockChain.new (bs.take k)).height_index j
             = some ((bs.get ⟨j, hj2⟩).hash))
      ∧ (∀ (j : Nat) (_hj1 : j < k) (hj2 : j < bs.length),
           (addAll BlockChain.new (bs.take k)).block_index ((bs.get ⟨j, hj2⟩).hash)
             = some (bs.get ⟨j, hj2⟩)) := by
  intro k
  induction k with
  | zero =>
      intro _
      refine ⟨rfl, ?_, ?_, ?_⟩
      · intro hzero _
        exact absurd hzero (Nat.lt_irrefl 0)
      · intro j hjz _
        exact absurd hjz (Nat.not_lt_zero j)
      · intro j hjz _
        exact absurd hjz (Nat.not_lt_zero j)
  | succ k ih =>
      intro hk1
      have hklen : k < bs.length := hk1
      obtain ⟨ih1, ih2, ih3, ih4⟩ := ih (Nat.le_of_lt hklen)
      have hstep := addAll_take_succ bs k hklen
      have hh : (bs.get ⟨k, hklen⟩).height = k := hheights k hklen
      have hvb : (addAll BlockChain.new (bs.take k)).is_valid_block
          (bs.get ⟨k, hklen⟩) = true := by
        rcases Nat.eq_zero_or_pos k with hk0 | hkpos
        · subst hk0
          unfold BlockChain.is_valid_block
          rw [hh]
          simp
        · obtain ⟨j, rfl⟩ : ∃ j, k = j + 1 := ⟨k - 1, by omega⟩
          have hjlen : j < bs.length := by omega
          have hb := ih2 hkpos (by omega)
          have hl := hlink j (by omega)
          have hprev : (bs.get ⟨j + 1, hklen⟩).prev_block_hash
              = (bs.get ⟨j, hjlen⟩).hash :=
            (Option.some.inj (hb.symm.trans hl)).symm
          have hidx := ih4 j (Nat.lt_succ_self j) hjlen
          unfold BlockChain.is_valid_block BlockChain.get_block_by_hash
          rw [hh, if_pos (Nat.succ_pos j), hprev, hidx]
          rfl
      have hrec := add_block_valid (addAll BlockChain.new (bs.take k))
        (bs.get ⟨k, hklen⟩) hvb
      rw [hstep, hrec]
      dsimp only
      refine ⟨?_, ?_, ?_, ?_⟩
      · simp [ih1]
      · intro _ hk1x
        simp only [BlockChain.get_best_block_hash, List.head?_cons,
          Option.map_some, Block.clone_hash]
        rfl
      · intro j hj1 hj2
        rw [hh]
        by_cases hjk : j = k
        · subst hjk
          rw [if_pos rfl]
        · rw [if_neg hjk]
          exact ih3 j (by omega) hj2
      · intro j hj1 hj2
        by_cases hjk : j = k
        · subst hjk
          rw [if_pos rfl]
        · rw [if_neg (hdist j hj2 k hklen hjk)]
          exact ih4 j (by omega) hj2

/-- C7: inserting into the empty chain a list of blocks forming a
valid chain — the block at position `i` carries height `i`, each
non-genesis block's previous hash equals the chain's best hash at its
insertion time, and the blocks' (stored) hashes are pairwise distinct,
collisions being out of scope — gives `get_block_count` equal to the
number of blocks and, for every height `h` below it,
`get_block_by_height h` returns a block whose height field is `h`. -/
theorem C7_valid_chain_count_lookup (bs : List Block)
    (hheights : ∀ (i : Nat) (hi : i < bs.length), (bs.get ⟨i, hi⟩).height = i)
    (hlink : ∀ (i : Nat) (hi : i < bs.length - 1),
      (addAll BlockChain.new (bs.take (i + 1))).get_best_block_hash
        = some ((bs.get ⟨i + 1, by omega⟩).prev_block_hash))
    (hdist : ∀ (i : Nat) (hi : i < bs.length) (j : Nat) (hj : j < bs.length),
      i ≠ j → (bs.get ⟨i, hi⟩).hash ≠ (bs.get ⟨j, hj⟩).hash) :
    (addAll BlockChain.new bs).get_block_count = bs.length
      ∧ ∀ (h : Nat), h < bs.length →
          ∃ b, (addAll BlockChain.new bs).get_block_by_height h = some b
            ∧ b.height = h := by
  obtain ⟨h1, _h2, h3, h4⟩ :=
    addAll_state bs hheights hlink hdist bs.length (Nat.le_refl _)
  rw [List.take_length] at h1 h3 h4
  constructor
  · exact h1
  · intro h hlt
    refine ⟨bs.get ⟨h, hlt⟩, ?_, hheights h hlt⟩
    show ((addAll BlockChain.new bs).height_index h).bind _ = _
    rw [h3 h hlt hlt, Option.some_bind]
    exact h4 h hlt hlt

/-- C7 witness: genesis plus one successor referencing the genesis
hash give count 2 and height lookups 0 and 1. -/
theorem C7_witness :
    (addAll BlockChain.new chain7).get_block_count = chain7.length
      ∧ ∀ (h : Nat), h < chain7.length →
          ∃ b, (addAll BlockChain.new chain7).get_block_by_height h = some b
            ∧ b.height = h :=
  C7_valid_chain_count_lookup chain7 (by decide) (by decide) (by decide)

/-- C10 witness: inserting a genesis block with two distinct
transactions, the sequence copy lists the txids in reverse of the
index copy. -/
theorem C10_witness :
    ∃ bseq bidx,
      (BlockChain.new.add_block block10).2.blocks.head? = some bseq
        ∧ (BlockChain.new.add_block block10).2.block_index block10.hash
            = some bidx
        ∧ bseq.transactions.map Transaction.txid
            = (bidx.transactions.map Transaction.txid).reverse :=
  C10_clone_reverses.2 BlockChain.new block10 rfl (by decide)

end BtcChain
